import Mathlib

/-!
Verification of the text-to-message segmentation engine of the
Markdown-ChatGPT conversation script (scripts/chatgpt.py).

Strings are modelled as lists of characters (a Python `str` is a sequence
of characters).  Python's `str.strip` / `str.rstrip` / `str.lstrip(">")`
become explicit `dropWhile` operations; `str.splitlines` is modelled over
the line-boundary characters Python recognises; the regular expression
substitution `re.sub(r"\n(\n+)", "\n\n", s)` becomes the function
`collapseNL`, which rewrites every maximal run of two or more newlines to
exactly two newlines.  Whitespace is modelled over the ASCII whitespace
characters together with the extra control/separator characters Python
treats both as whitespace and as line boundaries.
-/

namespace Chatgpt

/-- Shorthand: the character list underlying a string literal. -/
def chars (s : String) : List Char := s.toList

/-- The characters Python's `str.strip` family removes (ASCII whitespace
plus the control/separator characters relevant to `splitlines`). -/
def isPySpace (c : Char) : Bool :=
  c = ' ' || c = '\t' || c = '\n' || c = '\x0d' || c = '\x0b' || c = '\x0c' ||
  c = '\x1c' || c = '\x1d' || c = '\x1e' || c = '\x1f' || c = '\x85' ||
  c = '\u2028' || c = '\u2029'

/-- The line-boundary characters of Python's `str.splitlines`
(besides the two-character boundary CR LF, handled separately). -/
def isLineBreak (c : Char) : Bool :=
  c = '\n' || c = '\x0d' || c = '\x0b' || c = '\x0c' ||
  c = '\x1c' || c = '\x1d' || c = '\x1e' || c = '\x85' ||
  c = '\u2028' || c = '\u2029'

/-- Remove leading whitespace (Python `str.lstrip()`). -/
def dropL (l : List Char) : List Char := l.dropWhile isPySpace

/-- Remove trailing whitespace (Python `str.rstrip()`). -/
def dropR (l : List Char) : List Char := (l.reverse.dropWhile isPySpace).reverse

/-- Python `str.strip()`: remove whitespace from both ends. -/
def pyStrip (l : List Char) : List Char := dropR (dropL l)

/-- Python `line.lstrip(">")`: remove every leading blockquote marker. -/
def lstripGt (l : List Char) : List Char := l.dropWhile (fun c => c = '>')

/-- Worker for `collapseNL`.  The flag records that we are inside a newline
run whose first two newlines have already been emitted, so any further
newline of the same run is dropped. -/
def collapseAux : Bool → List Char → List Char
  | _, [] => []
  | b, c :: rest =>
    if b then
      if c = '\n' then collapseAux true rest
      else c :: collapseAux false rest
    else
      if c = '\n' then
        match rest with
        | [] => ['\n']
        | d :: rest2 =>
          if d = '\n' then '\n' :: '\n' :: collapseAux true rest2
          else '\n' :: collapseAux false (d :: rest2)
      else c :: collapseAux false rest

/-- `SPACES.sub("\n\n", s)` for `SPACES = re.compile(r"\n(\n+)")`: every
maximal run of two or more newlines is replaced by exactly two newlines. -/
def collapseNL (l : List Char) : List Char := collapseAux false l

/-- Python `str.splitlines()`.  CR LF counts as a single boundary; a
trailing boundary does not produce an extra empty line. -/
def splitlines : List Char → List (List Char)
  | [] => []
  | c :: rest =>
    if c = '\x0d' then
      match rest with
      | [] => [[]]
      | d :: rest2 =>
        if d = '\n' then [] :: splitlines rest2
        else [] :: splitlines (d :: rest2)
    else if isLineBreak c then [] :: splitlines rest
    else
      match splitlines rest with
      | [] => [[c]]
      | p :: ps => (c :: p) :: ps

/-- Python `s.split("\n")`: split at every newline character. -/
def splitNL : List Char → List (List Char)
  | [] => [[]]
  | c :: rest =>
    if c = '\n' then [] :: splitNL rest
    else
      match splitNL rest with
      | [] => [[c]]
      | p :: ps => (c :: p) :: ps

/-- Python `"\n".join(ls)`. -/
def joinNL : List (List Char) → List Char
  | [] => []
  | [l] => l
  | l :: ls => l ++ '\n' :: joinNL ls

/-- The kinds of text blocks in a Markdown ChatGPT conversation
(the `Kind` StrEnum of the script). -/
inductive Kind where
  | undefined
  | header
  | user
  | assistant
  | space
deriving DecidableEq, BEq

/-- The `.value` of each StrEnum member (its lowercase member name). -/
def Kind.value : Kind → List Char
  | Kind.undefined => chars "undefined"
  | Kind.header => chars "header"
  | Kind.user => chars "user"
  | Kind.assistant => chars "assistant"
  | Kind.space => chars "space"

/-- `classify(line)`: the kind of a line of text.  Header check first,
then assistant-marker check, then blank check, else user text. -/
def classify (line : List Char) : Kind :=
  if line.head? = some '#' then Kind.header
  else if line.head? = some '>' then Kind.assistant
  else if pyStrip line = [] then Kind.space
  else Kind.user

/-- `content_from(lines)`: strip markers and whitespace per line, join with
newlines, strip the whole, then collapse blank runs. -/
def content_from (lines : List (List Char)) : List Char :=
  collapseNL (pyStrip (joinNL (lines.map (fun line => pyStrip (lstripGt line)))))

/-- `itertools.groupby(lines, key=classify)`: the maximal runs of
consecutive lines sharing one classification. -/
def groupRuns : List (List Char) → List (List (List Char))
  | [] => []
  | l :: ls =>
    match groupRuns ls with
    | [] => [[l]]
    | g :: gs =>
      match g with
      | [] => [l] :: gs
      | x :: _ => if classify x = classify l then (l :: g) :: gs else [l] :: g :: gs

/-- The loop body of `conversation_parts`, walking the runs while keeping
the current role (`last_kind`) and the open block of raw lines. -/
def convLoop : Kind → List (List Char) → List (List (List Char)) → List (Kind × List Char)
  | k, block, [] => if block.isEmpty then [] else [(k, content_from block)]
  | k, block, g :: gs =>
    let kind := classify (g.headD [])
    if k = Kind.undefined ∧ ¬(kind = Kind.user ∨ kind = Kind.assistant) then
      convLoop k block gs
    else
      let k2 := if k = Kind.undefined then kind else k
      if kind = Kind.header then convLoop k2 block gs
      else if kind = k2 ∨ kind = Kind.space then convLoop k2 (block ++ g) gs
      else (k2, content_from block) :: convLoop kind g gs

/-- `conversation_parts(lines)`: the sequence of (kind, content) pairs of
the document. -/
def conversation_parts (lines : List (List Char)) : List (Kind × List Char) :=
  convLoop Kind.undefined [] (groupRuns lines)

/-- `format_reply(text)`: prefix every line of the reply with the
assistant quote marker and a space, and join with newlines. -/
def format_reply (text : List Char) : List Char :=
  joinNL ((splitlines text).map (fun line => '>' :: ' ' :: line))

/-- Result of `process`: whether a completion request was issued, and the
returned document text. -/
structure ProcResult where
  issued : Bool
  output : List Char
deriving DecidableEq

/-- The fixed system message the consumer prepends. -/
def systemMessage : List Char × List Char :=
  (chars "system", chars "You are a helpful assistant. Please don\x27t kill me")

/-- `process(content)`: build the message list (system message prepended),
skip when the last message role is "assistant", otherwise issue a request
(modelled by the oracle `reply`) and append the formatted reply. -/
def process (reply content : List Char) : ProcResult :=
  let messages := systemMessage ::
    (conversation_parts (splitlines content)).map (fun p => (Kind.value p.1, p.2))
  if (messages.getLastD ([], [])).1 = chars "assistant" then
    ⟨false, content⟩
  else
    ⟨true, dropR content ++ chars "\n\n" ++ format_reply reply⟩

/-- Instrumented form of the `conversation_parts` loop: it returns the
mid-stream emissions as (role, raw block) pairs together with the final
loop state, so that flush-time facts can be stated about raw blocks. -/
def convRun : Kind → List (List Char) → List (List (List Char)) →
    List (Kind × List (List Char)) × (Kind × List (List Char))
  | k, block, [] => ([], (k, block))
  | k, block, g :: gs =>
    let kind := classify (g.headD [])
    if k = Kind.undefined ∧ ¬(kind = Kind.user ∨ kind = Kind.assistant) then
      convRun k block gs
    else
      let k2 := if k = Kind.undefined then kind else k
      if kind = Kind.header then convRun k2 block gs
      else if kind = k2 ∨ kind = Kind.space then convRun k2 (block ++ g) gs
      else
        match convRun kind g gs with
        | (emitted, st) => ((k2, block) :: emitted, st)

/-- Every flushed block of a run of the engine, including the final flush,
as (role, raw line list) pairs. -/
def convBlocks (lines : List (List Char)) : List (Kind × List (List Char)) :=
  match convRun Kind.undefined [] (groupRuns lines) with
  | (emitted, (k, block)) => emitted ++ (if block.isEmpty then [] else [(k, block)])

/-- Modelled from the spec: the reference normalization of claim C5 —
strip the leading blockquote markers and surrounding whitespace from each
line, join the lines with single newlines, collapse every run of two or
more newlines down to exactly two, then strip leading and trailing
whitespace from the whole result (the collapse happens before the final
whole-string strip, unlike the code, which strips first). -/
def content_from_spec (lines : List (List Char)) : List Char :=
  pyStrip (collapseNL (joinNL (lines.map (fun line => pyStrip (lstripGt line)))))

/-! ### Generic list facts -/

theorem length_dropWhile_le (p : Char → Bool) (l : List Char) :
    (l.dropWhile p).length ≤ l.length := by
  induction l with
  | nil => simp
  | cons a t IH =>
    rw [List.dropWhile_cons]
    split
    · exact le_trans IH (by simp)
    · simp

theorem head?_dropWhile_false {p : Char → Bool} {l : List Char} {c : Char}
    (h : (l.dropWhile p).head? = some c) : p c = false := by
  induction l with
  | nil => simp at h
  | cons a t IH =>
    rw [List.dropWhile_cons] at h
    by_cases hp : p a = true
    · exact IH (by simpa [hp] using h)
    · rw [if_neg hp] at h
      have ha : a = c := by simpa using h
      subst ha
      simpa using hp

theorem dropWhile_eq_self_of_head {p : Char → Bool} {l : List Char}
    (h : ∀ c, l.head? = some c → p c = false) : l.dropWhile p = l := by
  cases l with
  | nil => rfl
  | cons a t => rw [List.dropWhile_cons, h a rfl]; simp

/-! ### Equations for the newline-run collapse -/

theorem collapseAux_nil (b : Bool) : collapseAux b [] = [] := by cases b <;> rfl

theorem collapseAux_true_nl (l : List Char) :
    collapseAux true ('\n' :: l) = collapseAux true l := by
  rw [collapseAux.eq_def]
  simp

theorem collapseAux_true_ne (c : Char) (l : List Char) (h : c ≠ '\n') :
    collapseAux true (c :: l) = c :: collapseAux false l := by
  rw [collapseAux.eq_def]
  simp [h]

theorem collapseAux_false_ne (c : Char) (l : List Char) (h : c ≠ '\n') :
    collapseAux false (c :: l) = c :: collapseAux false l := by
  cases l <;> simp [collapseAux, h]

theorem collapseNL_cons_ne (c : Char) (l : List Char) (h : c ≠ '\n') :
    collapseNL (c :: l) = c :: collapseNL l :=
  collapseAux_false_ne c l h

theorem collapseAux_true_replicate (k : Nat) (l : List Char) :
    collapseAux true (List.replicate k '\n' ++ l) = collapseAux true l := by
  induction k with
  | zero => rfl
  | succ n IH => rw [List.replicate_succ, List.cons_append, collapseAux_true_nl, IH]

theorem collapseAux_true_eq_false (l : List Char) (h : l.head? ≠ some '\n') :
    collapseAux true l = collapseAux false l := by
  cases l with
  | nil => rfl
  | cons c t =>
    have hc : c ≠ '\n' := by intro he; exact h (by rw [he]; rfl)
    rw [collapseAux_true_ne c t hc, collapseAux_false_ne c t hc]

theorem collapseNL_run (k : Nat) (rest : List Char) (hk : 1 ≤ k)
    (h : rest.head? ≠ some '\n') :
    collapseNL (List.replicate k '\n' ++ rest) =
      List.replicate (min k 2) '\n' ++ collapseNL rest := by
  match k, hk with
  | 1, _ =>
    cases rest with
    | nil => simp [collapseNL, collapseAux]
    | cons d t =>
      have hd : d ≠ '\n' := by intro he; exact h (by rw [he]; rfl)
      simp only [List.replicate_one, List.cons_append, List.nil_append]
      show collapseAux false ('\n' :: d :: t) = ['\n'] ++ collapseNL (d :: t)
      simp [collapseAux, hd, collapseNL]
  | (n + 2), _ =>
    have h2 : List.replicate (n + 2) '\n' ++ rest =
        '\n' :: '\n' :: (List.replicate n '\n' ++ rest) := by
      rw [List.replicate_succ, List.replicate_succ]; rfl
    rw [h2]
    show collapseAux false ('\n' :: '\n' :: (List.replicate n '\n' ++ rest)) = _
    have : collapseAux false ('\n' :: '\n' :: (List.replicate n '\n' ++ rest)) =
        '\n' :: '\n' :: collapseAux true (List.replicate n '\n' ++ rest) := by
      simp [collapseAux]
    rw [this, collapseAux_true_replicate, collapseAux_true_eq_false rest h]
    have hm : min (n + 2) 2 = 2 := by omega
    rw [hm]
    rfl

/-- Induction along the run structure seen by the collapse: a list of
characters is empty, starts with a non-newline character, or starts with a
maximal run of newlines. -/
theorem collapseNL_induction (P : List Char → Prop) (h0 : P [])
    (h1 : ∀ c l, c ≠ '\n' → P l → P (c :: l))
    (h2 : ∀ k l, 1 ≤ k → l.head? ≠ some '\n' → P l →
      P (List.replicate k '\n' ++ l)) :
    ∀ l, P l := by
  have key : ∀ n (l : List Char), l.length ≤ n → P l := by
    intro n
    induction n with
    | zero =>
      intro l hl
      have : l = [] := List.length_eq_zero.mp (Nat.le_zero.mp hl)
      rw [this]; exact h0
    | succ n IH =>
      intro l hl
      match l with
      | [] => exact h0
      | c :: t =>
        by_cases hc : c = '\n'
        · subst hc
          set p : Char → Bool := fun d => decide (d = '\n') with hp
          have hsplit : t.takeWhile p ++ t.dropWhile p = t :=
            List.takeWhile_append_dropWhile p t
          have hrep : t.takeWhile p = List.replicate (t.takeWhile p).length '\n' := by
            rw [List.eq_replicate_iff]
            refine ⟨rfl, ?_⟩
            intro b hb
            have hb2 := List.mem_takeWhile_imp hb
            rw [hp] at hb2
            simpa using hb2
          have hhead : (t.dropWhile p).head? ≠ some '\n' := by
            intro hcon
            have := head?_dropWhile_false hcon
            rw [hp] at this
            simp at this
          have hlen : (t.dropWhile p).length ≤ n := by
            have h1 := length_dropWhile_le p t
            have h2 : t.length ≤ n := by simpa using Nat.le_of_succ_le_succ hl
            omega
          have hPd : P (t.dropWhile p) := IH _ hlen
          have hgoal := h2 ((t.takeWhile p).length + 1) (t.dropWhile p)
            (by omega) hhead hPd
          have heq : List.replicate ((t.takeWhile p).length + 1) '\n' ++ t.dropWhile p =
              '\n' :: t := by
            rw [List.replicate_succ, List.cons_append]
            congr 1
            rw [← hrep]
            exact hsplit
          rwa [heq] at hgoal
        · exact h1 c t hc (IH t (by simpa using Nat.le_of_succ_le_succ hl))
  exact fun l => key l.length l le_rfl

theorem collapseNL_ne_nil (c : Char) (t : List Char) : collapseNL (c :: t) ≠ [] := by
  by_cases hc : c = '\n'
  · subst hc
    cases t with
    | nil => simp [collapseNL, collapseAux]
    | cons d t2 =>
      by_cases hd : d = '\n'
      · subst hd; simp [collapseNL, collapseAux]
      · simp [collapseNL, collapseAux, hd]
  · rw [collapseNL_cons_ne c t hc]; simp

theorem collapseNL_eq_nil_iff (l : List Char) : collapseNL l = [] ↔ l = [] := by
  cases l with
  | nil => simp [collapseNL, collapseAux]
  | cons c t => simp [collapseNL_ne_nil c t]

theorem collapseNL_head? (l : List Char) : (collapseNL l).head? = l.head? := by
  cases l with
  | nil => rfl
  | cons c t =>
    by_cases hc : c = '\n'
    · subst hc
      cases t with
      | nil => simp [collapseNL, collapseAux]
      | cons d t2 =>
        by_cases hd : d = '\n'
        · subst hd; simp [collapseNL, collapseAux]
        · simp [collapseNL, collapseAux, hd]
    · rw [collapseNL_cons_ne c t hc]; simp

theorem collapseNL_idem : ∀ l, collapseNL (collapseNL l) = collapseNL l := by
  apply collapseNL_induction
  · rfl
  · intro c l hc IH
    rw [collapseNL_cons_ne c l hc, collapseNL_cons_ne c (collapseNL l) hc, IH]
  · intro k l hk hh IH
    rw [collapseNL_run k l hk hh]
    have hh2 : (collapseNL l).head? ≠ some '\n' := by rw [collapseNL_head?]; exact hh
    rw [collapseNL_run (min k 2) (collapseNL l) (by omega) hh2, IH]
    have : min (min k 2) 2 = min k 2 := by omega
    rw [this]

/-! ### Facts about the whitespace strips -/

theorem isPySpace_nl : isPySpace '\n' = true := by decide

theorem dropL_nil : dropL [] = [] := rfl

theorem dropR_nil : dropR [] = [] := rfl

theorem dropL_replicate_nl_append (m : Nat) (x : List Char) :
    dropL (List.replicate m '\n' ++ x) = dropL x := by
  unfold dropL
  rw [List.dropWhile_append, List.dropWhile_replicate]
  simp [isPySpace_nl]

theorem dropR_eq_nil_iff (l : List Char) :
    dropR l = [] ↔ ∀ c ∈ l, isPySpace c = true := by
  unfold dropR
  rw [List.reverse_eq_nil_iff, List.dropWhile_eq_nil_iff]
  constructor
  · intro h c hc; exact h c (List.mem_reverse.mpr hc)
  · intro h c hc; exact h c (List.mem_reverse.mp hc)

theorem dropL_eq_nil_iff (l : List Char) :
    dropL l = [] ↔ ∀ c ∈ l, isPySpace c = true :=
  List.dropWhile_eq_nil_iff

theorem dropR_append (x y : List Char) :
    dropR (x ++ y) = if dropR y = [] then dropR x else x ++ dropR y := by
  unfold dropR
  rw [List.reverse_append, List.dropWhile_append]
  by_cases h : (y.reverse.dropWhile isPySpace).isEmpty = true
  · rw [if_pos h]
    have h2 : (y.reverse.dropWhile isPySpace).reverse = [] := by
      rw [List.isEmpty_iff] at h
      rw [h]; rfl
    rw [if_pos h2]
  · rw [if_neg h]
    have h2 : ¬((y.reverse.dropWhile isPySpace).reverse = []) := by
      rw [List.isEmpty_iff] at h
      simpa [List.reverse_eq_nil_iff] using h
    rw [if_neg h2, List.reverse_append, List.reverse_reverse]

theorem dropR_singleton (c : Char) :
    dropR [c] = if isPySpace c then [] else [c] := by
  unfold dropR
  by_cases h : isPySpace c = true
  · simp [List.dropWhile_cons, h]
  · simp [List.dropWhile_cons, h]

theorem dropR_cons (c : Char) (l : List Char) :
    dropR (c :: l) = if dropR l = [] then dropR [c] else c :: dropR l := by
  have h := dropR_append [c] l
  simpa using h

theorem dropR_replicate_nl (m : Nat) : dropR (List.replicate m '\n') = [] := by
  rw [dropR_eq_nil_iff]
  intro c hc
  rw [(List.mem_replicate.mp hc).2]
  exact isPySpace_nl

theorem dropR_decomp (l : List Char) : ∃ w, l = dropR l ++ w := by
  refine ⟨(l.reverse.takeWhile isPySpace).reverse, ?_⟩
  conv_lhs => rw [← List.reverse_reverse l,
    ← List.takeWhile_append_dropWhile isPySpace l.reverse]
  rw [List.reverse_append]
  rfl

theorem head?_dropR (l : List Char) (h : dropR l ≠ []) :
    (dropR l).head? = l.head? := by
  obtain ⟨w, hw⟩ := dropR_decomp l
  conv_rhs => rw [hw]
  rw [List.head?_append_of_ne_nil _ h]

theorem dropL_idem (l : List Char) : dropL (dropL l) = dropL l := by
  apply dropWhile_eq_self_of_head
  intro c hc
  exact head?_dropWhile_false hc

theorem dropWhile_idem (p : Char → Bool) (l : List Char) :
    (l.dropWhile p).dropWhile p = l.dropWhile p :=
  dropWhile_eq_self_of_head (fun _ hc => head?_dropWhile_false hc)

theorem dropR_idem (l : List Char) : dropR (dropR l) = dropR l := by
  unfold dropR
  rw [List.reverse_reverse, dropWhile_idem]

/-! ### The collapse commutes with both end strips -/

theorem dropL_collapseNL : ∀ l, dropL (collapseNL l) = collapseNL (dropL l) := by
  apply collapseNL_induction
  · rfl
  · intro c l hc IH
    rw [collapseNL_cons_ne c l hc]
    unfold dropL
    rw [List.dropWhile_cons, List.dropWhile_cons]
    by_cases hp : isPySpace c = true
    · rw [if_pos hp, if_pos hp]
      exact IH
    · rw [if_neg hp, if_neg hp, collapseNL_cons_ne c l hc]
  · intro k l hk hh IH
    rw [collapseNL_run k l hk hh, dropL_replicate_nl_append, dropL_replicate_nl_append,
      IH]

theorem dropR_collapseNL : ∀ l, dropR (collapseNL l) = collapseNL (dropR l) := by
  apply collapseNL_induction
  · rfl
  · intro c l hc IH
    rw [collapseNL_cons_ne c l hc, dropR_cons c (collapseNL l), dropR_cons c l]
    by_cases h : dropR (collapseNL l) = []
    · rw [if_pos h]
      have h2 : dropR l = [] := by
        have := IH.symm.trans h
        rwa [collapseNL_eq_nil_iff] at this
      rw [if_pos h2, dropR_singleton]
      by_cases hp : isPySpace c = true
      · rw [if_pos hp]; rfl
      · rw [if_neg hp, collapseNL_cons_ne c [] hc]; rfl
    · rw [if_neg h]
      have h2 : dropR l ≠ [] := by
        intro hc2
        apply h
        rw [IH, hc2]
        rfl
      rw [if_neg h2, collapseNL_cons_ne c (dropR l) hc, IH]
  · intro k l hk hh IH
    rw [collapseNL_run k l hk hh]
    by_cases h : dropR (collapseNL l) = []
    · have h2 : dropR l = [] := by
        have := IH.symm.trans h
        rwa [collapseNL_eq_nil_iff] at this
      rw [dropR_append, if_pos h, dropR_replicate_nl, dropR_append, if_pos h2,
        dropR_replicate_nl]
      rfl
    · have h2 : dropR l ≠ [] := by
        intro hc2
        apply h
        rw [IH, hc2]
        rfl
      rw [dropR_append, if_neg h, IH, dropR_append, if_neg h2]
      have hh2 : (dropR l).head? ≠ some '\n' := by
        rw [head?_dropR l h2]
        exact hh
      rw [collapseNL_run k (dropR l) hk hh2]

theorem collapseNL_pyStrip (l : List Char) :
    collapseNL (pyStrip l) = pyStrip (collapseNL l) := by
  unfold pyStrip
  rw [← dropR_collapseNL, ← dropL_collapseNL]

theorem pyStrip_idem (l : List Char) : pyStrip (pyStrip l) = pyStrip l := by
  unfold pyStrip
  have h1 : dropL (dropR (dropL l)) = dropR (dropL l) := by
    by_cases h : dropR (dropL l) = []
    · rw [h]; rfl
    · apply dropWhile_eq_self_of_head
      intro c hc
      rw [head?_dropR _ h] at hc
      exact head?_dropWhile_false hc
  rw [h1, dropR_idem]

theorem pyStrip_collapseNL_pyStrip (l : List Char) :
    pyStrip (collapseNL (pyStrip l)) = collapseNL (pyStrip l) := by
  rw [← collapseNL_pyStrip, pyStrip_idem]

/-! ### Equations and facts for the line splitters and the joiner -/

theorem splitNL_cons_nl (t : List Char) : splitNL ('\n' :: t) = [] :: splitNL t := by
  rw [splitNL.eq_def]
  simp

theorem splitNL_ne_nil (l : List Char) : splitNL l ≠ [] := by
  cases l with
  | nil => simp [splitNL]
  | cons c t =>
    rw [splitNL.eq_def]
    by_cases hc : c = '\n'
    · simp [hc]
    · simp only [if_neg hc]
      cases splitNL t <;> simp

theorem splitNL_cons_ne (c : Char) (t : List Char) (p : List Char)
    (ps : List (List Char)) (hc : c ≠ '\n') (h : splitNL t = p :: ps) :
    splitNL (c :: t) = (c :: p) :: ps := by
  rw [splitNL.eq_def]
  simp [hc, h]

theorem joinNL_cons_cons (l x : List Char) (t : List (List Char)) :
    joinNL (l :: x :: t) = l ++ '\n' :: joinNL (x :: t) := rfl

theorem joinNL_cons_of_ne_nil (l : List Char) (ls : List (List Char)) (h : ls ≠ []) :
    joinNL (l :: ls) = l ++ '\n' :: joinNL ls := by
  cases ls with
  | nil => exact absurd rfl h
  | cons x t => exact joinNL_cons_cons l x t

theorem joinNL_cons_head (c : Char) (p : List Char) (ps : List (List Char)) :
    joinNL ((c :: p) :: ps) = c :: joinNL (p :: ps) := by
  cases ps with
  | nil => rfl
  | cons x t => rw [joinNL_cons_cons, joinNL_cons_cons]; rfl

theorem joinNL_splitNL (s : List Char) : joinNL (splitNL s) = s := by
  induction s with
  | nil => rfl
  | cons c t IH =>
    by_cases hc : c = '\n'
    · subst hc
      rw [splitNL_cons_nl, joinNL_cons_of_ne_nil [] (splitNL t) (splitNL_ne_nil t),
        IH]
      rfl
    · obtain ⟨p, ps, hps⟩ : ∃ p ps, splitNL t = p :: ps := by
        cases hsp : splitNL t with
        | nil => exact absurd hsp (splitNL_ne_nil t)
        | cons p ps => exact ⟨p, ps, rfl⟩
      rw [splitNL_cons_ne c t p ps hc hps, joinNL_cons_head, ← hps, IH]

theorem isLineBreak_cr : isLineBreak '\x0d' = true := by decide

theorem isLineBreak_nl : isLineBreak '\n' = true := by decide

theorem splitlines_crlf (t : List Char) :
    splitlines ('\x0d' :: '\n' :: t) = [] :: splitlines t := by
  rw [splitlines.eq_def]
  simp

theorem splitlines_break (c : Char) (t : List Char) (h : isLineBreak c = true)
    (h2 : ¬(c = '\x0d' ∧ t.head? = some '\n')) :
    splitlines (c :: t) = [] :: splitlines t := by
  rw [splitlines.eq_def]
  by_cases hcr : c = '\x0d'
  · subst hcr
    simp only [if_pos rfl]
    cases t with
    | nil => rfl
    | cons d t2 =>
      have hd : d ≠ '\n' := by
        intro he
        exact h2 ⟨rfl, by rw [he]; rfl⟩
      simp [hd]
  · simp [hcr, h]

theorem splitlines_char (c : Char) (t : List Char) (p : List Char)
    (ps : List (List Char)) (h : isLineBreak c = false) (hsp : splitlines t = p :: ps) :
    splitlines (c :: t) = (c :: p) :: ps := by
  have hcr : c ≠ '\x0d' := by
    intro he
    rw [he] at h
    rw [isLineBreak_cr] at h
    exact absurd h (by simp)
  rw [splitlines.eq_def]
  simp [hcr, h, hsp]

theorem splitlines_char_nil (c : Char) (t : List Char) (h : isLineBreak c = false)
    (hsp : splitlines t = []) : splitlines (c :: t) = [[c]] := by
  have hcr : c ≠ '\x0d' := by
    intro he
    rw [he] at h
    rw [isLineBreak_cr] at h
    exact absurd h (by simp)
  rw [splitlines.eq_def]
  simp [hcr, h, hsp]

theorem splitlines_ne_nil (l : List Char) (h : l ≠ []) : splitlines l ≠ [] := by
  cases l with
  | nil => exact absurd rfl h
  | cons c t =>
    by_cases hbr : isLineBreak c = true
    · by_cases hp : c = '\x0d' ∧ t.head? = some '\n'
      · obtain ⟨hc, ht⟩ := hp
        subst hc
        cases t with
        | nil => simp at ht
        | cons d t2 =>
          have hd : d = '\n' := by simpa using ht
          subst hd
          rw [splitlines_crlf]
          simp
      · rw [splitlines_break c t hbr hp]
        simp
    · have h3 : isLineBreak c = false := by simpa using hbr
      cases hsp : splitlines t with
      | nil => rw [splitlines_char_nil c t h3 hsp]; simp
      | cons p ps => rw [splitlines_char c t p ps h3 hsp]; simp

/-- Induction along the recursion structure of `splitlines`. -/
theorem splitlines_induction (P : List Char → Prop) (h0 : P [])
    (hcrlf : ∀ t, P t → P ('\x0d' :: '\n' :: t))
    (hbr : ∀ c t, isLineBreak c = true → ¬(c = '\x0d' ∧ t.head? = some '\n') →
      P t → P (c :: t))
    (hch : ∀ c t, isLineBreak c = false → P t → P (c :: t)) :
    ∀ l, P l := by
  have key : ∀ n (l : List Char), l.length ≤ n → P l := by
    intro n
    induction n with
    | zero =>
      intro l hl
      have : l = [] := List.length_eq_zero.mp (Nat.le_zero.mp hl)
      rw [this]; exact h0
    | succ n IH =>
      intro l hl
      match l with
      | [] => exact h0
      | c :: t =>
        have ht : t.length ≤ n := by simpa using Nat.le_of_succ_le_succ hl
        by_cases hbc : isLineBreak c = true
        · by_cases hp : c = '\x0d' ∧ t.head? = some '\n'
          · obtain ⟨hc, hh⟩ := hp
            subst hc
            cases t with
            | nil => simp at hh
            | cons d t2 =>
              have hd : d = '\n' := by simpa using hh
              subst hd
              have ht2 : t2.length ≤ n := by
                simp only [List.length_cons] at ht
                omega
              exact hcrlf t2 (IH t2 ht2)
          · exact hbr c t hbc hp (IH t ht)
        · exact hch c t (by simpa using hbc) (IH t ht)
  exact fun l => key l.length l le_rfl

theorem splitlines_no_break : ∀ s, ∀ p ∈ splitlines s, ∀ c ∈ p, isLineBreak c = false := by
  apply splitlines_induction
  · intro p hp; simp [splitlines] at hp
  · intro t IH p hp
    rw [splitlines_crlf] at hp
    rcases List.mem_cons.mp hp with rfl | hp2
    · intro c hc; simp at hc
    · exact IH p hp2
  · intro c t hbc hp IH p hp2
    rw [splitlines_break c t hbc hp] at hp2
    rcases List.mem_cons.mp hp2 with rfl | hp3
    · intro d hd; simp at hd
    · exact IH p hp3
  · intro c t hc IH p hp
    cases hsp : splitlines t with
    | nil =>
      rw [splitlines_char_nil c t hc hsp] at hp
      rcases List.mem_cons.mp hp with rfl | hp2
      · intro d hd
        rcases List.mem_cons.mp hd with rfl | hd2
        · exact hc
        · simp at hd2
      · simp at hp2
    | cons q qs =>
      rw [splitlines_char c t q qs hc hsp] at hp
      rcases List.mem_cons.mp hp with rfl | hp2
      · intro d hd
        rcases List.mem_cons.mp hd with rfl | hd2
        · exact hc
        · exact IH q (by rw [hsp]; exact List.mem_cons_self q qs) d hd2
      · exact IH p (by rw [hsp]; exact List.mem_cons_of_mem q hp2)

theorem splitlines_single_line (p : List Char) (hne : p ≠ [])
    (h : ∀ c ∈ p, isLineBreak c = false) : splitlines p = [p] := by
  induction p with
  | nil => exact absurd rfl hne
  | cons c t IH =>
    have hc : isLineBreak c = false := h c (List.mem_cons_self c t)
    cases t with
    | nil => exact splitlines_char_nil c [] hc rfl
    | cons d t2 =>
      have ht : splitlines (d :: t2) = [d :: t2] :=
        IH (by simp) (fun x hx => h x (List.mem_cons_of_mem c hx))
      exact splitlines_char c (d :: t2) (d :: t2) [] hc ht

theorem splitlines_line_append (p z : List Char)
    (h : ∀ c ∈ p, isLineBreak c = false) :
    splitlines (p ++ '\n' :: z) = p :: splitlines z := by
  induction p with
  | nil =>
    rw [List.nil_append]
    exact splitlines_break '\n' z isLineBreak_nl (by simp)
  | cons c t IH =>
    have hc : isLineBreak c = false := h c (List.mem_cons_self c t)
    have ht := IH (fun x hx => h x (List.mem_cons_of_mem c hx))
    rw [List.cons_append]
    exact splitlines_char c (t ++ '\n' :: z) t (splitlines z) hc ht

theorem splitlines_joinNL (ps : List (List Char)) (hne : ps ≠ [])
    (h : ∀ p ∈ ps, p ≠ [] ∧ ∀ c ∈ p, isLineBreak c = false) :
    splitlines (joinNL ps) = ps := by
  induction ps with
  | nil => exact absurd rfl hne
  | cons p t IH =>
    cases t with
    | nil =>
      obtain ⟨hp1, hp2⟩ := h p (List.mem_cons_self p [])
      exact splitlines_single_line p hp1 hp2
    | cons q t2 =>
      rw [joinNL_cons_cons,
        splitlines_line_append p (joinNL (q :: t2)) (h p (List.mem_cons_self p _)).2,
        IH (by simp) (fun x hx => h x (List.mem_cons_of_mem p hx))]

theorem splitlines_append_boundary :
    ∀ d z, d ≠ [] → (∀ c, d.getLast? = some c → isLineBreak c = false) →
      splitlines (d ++ '\n' :: z) = splitlines d ++ splitlines z := by
  have key : ∀ n (d : List Char), d.length ≤ n → ∀ z, d ≠ [] →
      (∀ c, d.getLast? = some c → isLineBreak c = false) →
      splitlines (d ++ '\n' :: z) = splitlines d ++ splitlines z := by
    intro n
    induction n with
    | zero =>
      intro d hd z hne
      exact absurd (List.length_eq_zero.mp (Nat.le_zero.mp hd)) hne
    | succ n IH =>
      intro d hd z hne hlast
      match d with
      | [c] =>
        have hc : isLineBreak c = false := hlast c rfl
        have h1 : splitlines ('\n' :: z) = [] :: splitlines z :=
          splitlines_break '\n' z isLineBreak_nl (by simp)
        have h2 : splitlines ([c] ++ '\n' :: z) = [c] :: splitlines z := by
          rw [List.cons_append, List.nil_append]
          exact splitlines_char c ('\n' :: z) [] (splitlines z) hc h1
        rw [h2, splitlines_char_nil c [] hc rfl]
        rfl
      | c :: e :: d3 =>
        have hd2ne : (e :: d3) ≠ [] := by simp
        have hlast2 : ∀ x, (e :: d3).getLast? = some x → isLineBreak x = false := by
          intro x hx
          apply hlast
          have : (c :: e :: d3) = [c] ++ (e :: d3) := rfl
          rw [this, List.getLast?_append_of_ne_nil [c] hd2ne]
          exact hx
        have hlen2 : (e :: d3).length ≤ n := by
          simp only [List.length_cons] at hd ⊢
          omega
        have IH2 := IH (e :: d3) hlen2 z hd2ne hlast2
        by_cases hpair : c = '\x0d' ∧ e = '\n'
        · obtain ⟨hc, he⟩ := hpair
          subst hc; subst he
          cases d3 with
          | nil =>
            have := hlast2 '\n' rfl
            rw [isLineBreak_nl] at this
            exact absurd this (by simp)
          | cons f d4 =>
            have hd3ne : (f :: d4) ≠ [] := by simp
            have hlast3 : ∀ x, (f :: d4).getLast? = some x → isLineBreak x = false := by
              intro x hx
              apply hlast2
              have : ('\n' :: f :: d4) = ['\n'] ++ (f :: d4) := rfl
              rw [this, List.getLast?_append_of_ne_nil ['\n'] hd3ne]
              exact hx
            have hlen3 : (f :: d4).length ≤ n := by
              simp only [List.length_cons] at hd ⊢
              omega
            have IH3 := IH (f :: d4) hlen3 z hd3ne hlast3
            have heq : ('\x0d' :: '\n' :: f :: d4) ++ '\n' :: z =
                '\x0d' :: '\n' :: ((f :: d4) ++ '\n' :: z) := rfl
            rw [heq, splitlines_crlf, IH3, splitlines_crlf]
            rfl
        · by_cases hbc : isLineBreak c = true
          · have hnp : ¬(c = '\x0d' ∧ ((e :: d3) ++ '\n' :: z).head? = some '\n') := by
              intro hcon
              obtain ⟨hc, hh⟩ := hcon
              apply hpair
              refine ⟨hc, ?_⟩
              simpa using hh
            have hnp2 : ¬(c = '\x0d' ∧ (e :: d3).head? = some '\n') := by
              intro hcon
              obtain ⟨hc, hh⟩ := hcon
              apply hpair
              refine ⟨hc, ?_⟩
              simpa using hh
            have heq : (c :: e :: d3) ++ '\n' :: z = c :: ((e :: d3) ++ '\n' :: z) := rfl
            rw [heq, splitlines_break c _ hbc hnp, IH2,
              splitlines_break c _ hbc hnp2]
            rfl
          · have hbf : isLineBreak c = false := by simpa using hbc
            obtain ⟨p, ps, hps⟩ : ∃ p ps, splitlines (e :: d3) = p :: ps := by
              cases hsp : splitlines (e :: d3) with
              | nil => exact absurd hsp (splitlines_ne_nil _ hd2ne)
              | cons p ps => exact ⟨p, ps, rfl⟩
            have heq : (c :: e :: d3) ++ '\n' :: z = c :: ((e :: d3) ++ '\n' :: z) := rfl
            have hps2 : splitlines ((e :: d3) ++ '\n' :: z) = p :: (ps ++ splitlines z) := by
              rw [IH2, hps]
              rfl
            rw [heq, splitlines_char c _ p (ps ++ splitlines z) hbf hps2,
              splitlines_char c _ p ps hbf hps]
            rfl
  intro d z hne hlast
  exact key d.length d le_rfl z hne hlast

theorem getLast?_cons_of_ne_nil (a : Char) (l : List Char) (h : l ≠ []) :
    (a :: l).getLast? = l.getLast? := by
  have : (a :: l) = [a] ++ l := rfl
  rw [this, List.getLast?_append_of_ne_nil [a] h]

theorem getLast?_cons_of_ne_nil_lines (a : List Char) (l : List (List Char))
    (h : l ≠ []) : (a :: l).getLast? = l.getLast? := by
  have : (a :: l) = [a] ++ l := rfl
  rw [this, List.getLast?_append_of_ne_nil [a] h]

theorem splitlines_getLast :
    ∀ d, d ≠ [] → ∀ c, d.getLast? = some c → isLineBreak c = false →
      ∃ p, (splitlines d).getLast? = some p ∧ p.getLast? = some c := by
  have key : ∀ n (d : List Char), d.length ≤ n → d ≠ [] →
      ∀ c, d.getLast? = some c → isLineBreak c = false →
      ∃ p, (splitlines d).getLast? = some p ∧ p.getLast? = some c := by
    intro n
    induction n with
    | zero =>
      intro d hd hne
      exact absurd (List.length_eq_zero.mp (Nat.le_zero.mp hd)) hne
    | succ n IH =>
      intro d hd hne c hlast hcbr
      match d with
      | [x] =>
        have hx : x = c := by simpa using hlast
        subst hx
        rw [splitlines_char_nil x [] hcbr rfl]
        exact ⟨[x], rfl, rfl⟩
      | x :: e :: d3 =>
        have hd2ne : (e :: d3) ≠ [] := by simp
        have hlast2 : (e :: d3).getLast? = some c := by
          rw [← getLast?_cons_of_ne_nil x (e :: d3) hd2ne]
          exact hlast
        have hlen2 : (e :: d3).length ≤ n := by
          simp only [List.length_cons] at hd ⊢
          omega
        by_cases hpair : x = '\x0d' ∧ e = '\n'
        · obtain ⟨hx, he⟩ := hpair
          subst hx; subst he
          cases d3 with
          | nil =>
            have hcnl : '\n' = c := by simpa using hlast2
            rw [← hcnl, isLineBreak_nl] at hcbr
            exact absurd hcbr (by simp)
          | cons f d4 =>
            have hd3ne : (f :: d4) ≠ [] := by simp
            have hlast3 : (f :: d4).getLast? = some c := by
              rw [← getLast?_cons_of_ne_nil '\n' (f :: d4) hd3ne]
              exact hlast2
            have hlen3 : (f :: d4).length ≤ n := by
              simp only [List.length_cons] at hd ⊢
              omega
            obtain ⟨p, hp1, hp2⟩ := IH (f :: d4) hlen3 hd3ne c hlast3 hcbr
            refine ⟨p, ?_, hp2⟩
            rw [splitlines_crlf,
              getLast?_cons_of_ne_nil_lines [] _ (splitlines_ne_nil _ hd3ne)]
            exact hp1
        · by_cases hbc : isLineBreak x = true
          · have hnp : ¬(x = '\x0d' ∧ (e :: d3).head? = some '\n') := by
              intro hcon
              obtain ⟨hx, hh⟩ := hcon
              exact hpair ⟨hx, by simpa using hh⟩
            obtain ⟨p, hp1, hp2⟩ := IH (e :: d3) hlen2 hd2ne c hlast2 hcbr
            refine ⟨p, ?_, hp2⟩
            rw [splitlines_break x _ hbc hnp,
              getLast?_cons_of_ne_nil_lines [] _ (splitlines_ne_nil _ hd2ne)]
            exact hp1
          · have hbf : isLineBreak x = false := by simpa using hbc
            obtain ⟨q, qs, hqs⟩ : ∃ q qs, splitlines (e :: d3) = q :: qs := by
              cases hsp : splitlines (e :: d3) with
              | nil => exact absurd hsp (splitlines_ne_nil _ hd2ne)
              | cons q qs => exact ⟨q, qs, rfl⟩
            obtain ⟨p, hp1, hp2⟩ := IH (e :: d3) hlen2 hd2ne c hlast2 hcbr
            rw [splitlines_char x _ q qs hbf hqs]
            cases qs with
            | nil =>
              have hpq : q = p := by
                rw [hqs] at hp1
                simpa using hp1
              subst hpq
              have hpne : q ≠ [] := by
                intro hcon
                rw [hcon] at hp2
                simp at hp2
              refine ⟨x :: q, rfl, ?_⟩
              rw [getLast?_cons_of_ne_nil x q hpne]
              exact hp2
            | cons r rs =>
              refine ⟨p, ?_, hp2⟩
              rw [hqs] at hp1
              rw [getLast?_cons_of_ne_nil_lines (x :: q) (r :: rs) (by simp),
                ← getLast?_cons_of_ne_nil_lines q (r :: rs) (by simp)]
              exact hp1
  intro d hne c hlast hcbr
  exact key d.length d le_rfl hne c hlast hcbr

/-! ### Classification facts -/

theorem pyStrip_eq_nil_iff (l : List Char) :
    pyStrip l = [] ↔ ∀ c ∈ l, isPySpace c = true := by
  unfold pyStrip
  rw [dropR_eq_nil_iff]
  constructor
  · intro h c hc
    have hsplit := List.takeWhile_append_dropWhile isPySpace l
    rw [← hsplit] at hc
    rcases List.mem_append.mp hc with hc2 | hc2
    · exact List.mem_takeWhile_imp hc2
    · exact h c hc2
  · intro h c hc
    apply h
    have hsplit := List.takeWhile_append_dropWhile isPySpace l
    rw [← hsplit]
    exact List.mem_append.mpr (Or.inr hc)

theorem classify_ne_undefined (line : List Char) : classify line ≠ Kind.undefined := by
  unfold classify
  by_cases h1 : line.head? = some '#'
  · simp [h1]
  · by_cases h2 : line.head? = some '>'
    · simp [h1, h2]
    · by_cases h3 : pyStrip line = []
      · simp [h1, h2, h3]
      · simp [h1, h2, h3]

theorem classify_cases (line : List Char) :
    classify line = Kind.header ∨ classify line = Kind.assistant ∨
      classify line = Kind.space ∨ classify line = Kind.user := by
  unfold classify
  by_cases h1 : line.head? = some '#'
  · simp [h1]
  · by_cases h2 : line.head? = some '>'
    · simp [h1, h2]
    · by_cases h3 : pyStrip line = []
      · simp [h1, h2, h3]
      · simp [h1, h2, h3]

theorem classify_nil : classify [] = Kind.space := by decide

theorem classify_ne_space_of_strip (line : List Char) (h : pyStrip line ≠ []) :
    classify line ≠ Kind.space := by
  unfold classify
  by_cases h1 : line.head? = some '#'
  · simp [h1]
  · by_cases h2 : line.head? = some '>'
    · simp [h1, h2]
    · simp [h1, h2, h]

theorem classify_marker (t : List Char) :
    classify ('>' :: ' ' :: t) = Kind.assistant := by
  unfold classify
  simp

/-! ### Facts about the run grouping -/

theorem groupRuns_cons_eq (x : List Char) (t : List (List Char)) :
    groupRuns (x :: t) =
      match groupRuns t with
      | [] => [[x]]
      | g :: gs =>
        match g with
        | [] => [x] :: gs
        | y :: _ => if classify y = classify x then (x :: g) :: gs
                    else [x] :: g :: gs := rfl

theorem groupRuns_cons (x : List Char) (t : List (List Char)) :
    ∃ g gs, groupRuns (x :: t) = (x :: g) :: gs := by
  rw [groupRuns_cons_eq]
  cases groupRuns t with
  | nil => exact ⟨[], [], rfl⟩
  | cons g gs =>
    cases g with
    | nil => exact ⟨[], gs, rfl⟩
    | cons y g2 =>
      by_cases h : classify y = classify x
      · exact ⟨y :: g2, gs, by simp [h]⟩
      · exact ⟨[], (y :: g2) :: gs, by simp [h]⟩

theorem groupRuns_nil_iff (l : List (List Char)) : groupRuns l = [] ↔ l = [] := by
  cases l with
  | nil => simp [groupRuns]
  | cons x t =>
    obtain ⟨g, gs, h⟩ := groupRuns_cons x t
    rw [h]
    simp

theorem groupRuns_forall_ne_nil : ∀ l, ∀ g ∈ groupRuns l, g ≠ [] := by
  intro l
  induction l with
  | nil => intro g hg; simp [groupRuns] at hg
  | cons x t IH =>
    intro g hg
    rw [groupRuns_cons_eq] at hg
    cases hgr : groupRuns t with
    | nil =>
      rw [hgr] at hg
      rcases List.mem_cons.mp hg with rfl | hg2
      · simp
      · simp at hg2
    | cons g0 gs =>
      rw [hgr] at hg
      cases g0 with
      | nil =>
        rcases List.mem_cons.mp hg with rfl | hg2
        · simp
        · exact IH g (by rw [hgr]; exact List.mem_cons_of_mem [] hg2)
      | cons y g2 =>
        dsimp only at hg
        by_cases hcl : classify y = classify x
        · rw [if_pos hcl] at hg
          rcases List.mem_cons.mp hg with rfl | hg2
          · simp
          · exact IH g (by rw [hgr]; exact List.mem_cons_of_mem _ hg2)
        · rw [if_neg hcl] at hg
          rcases List.mem_cons.mp hg with rfl | hg2
          · simp
          · exact IH g (by rw [hgr]; exact hg2)

theorem groupRuns_const (k : Kind) :
    ∀ l, l ≠ [] → (∀ x ∈ l, classify x = k) → groupRuns l = [l] := by
  intro l
  induction l with
  | nil => intro h; exact absurd rfl h
  | cons x t IH =>
    intro _ hall
    cases t with
    | nil => rfl
    | cons y t2 =>
      have ht : groupRuns (y :: t2) = [y :: t2] :=
        IH (by simp) (fun z hz => hall z (List.mem_cons_of_mem x hz))
      rw [groupRuns_cons_eq, ht]
      have hcl : classify y = classify x := by
        rw [hall y (by simp), hall x (by simp)]
      simp [hcl]

theorem groupRuns_append :
    ∀ xs y ys, xs ≠ [] →
      (∀ c, xs.getLast? = some c → classify c ≠ classify y) →
      groupRuns (xs ++ y :: ys) = groupRuns xs ++ groupRuns (y :: ys) := by
  intro xs
  induction xs with
  | nil => intro y ys h; exact absurd rfl h
  | cons x xs2 IH =>
    intro y ys _ hlast
    cases xs2 with
    | nil =>
      obtain ⟨g, gs, hg⟩ := groupRuns_cons y ys
      have hcl : ¬(classify y = classify x) := by
        intro hcon
        exact hlast x rfl hcon.symm
      have h1 : groupRuns ([x] ++ y :: ys) = [x] :: (y :: g) :: gs := by
        rw [List.cons_append, List.nil_append, groupRuns_cons_eq, hg]
        simp [hcl]
      rw [h1, hg]
      rfl
    | cons x2 t2 =>
      have hne : (x2 :: t2) ≠ [] := by simp
      have hlast2 : ∀ c, (x2 :: t2).getLast? = some c → classify c ≠ classify y := by
        intro c hc
        apply hlast c
        rw [getLast?_cons_of_ne_nil_lines x (x2 :: t2) hne]
        exact hc
      have IH2 := IH y ys hne hlast2
      obtain ⟨g2, gs2, hg2⟩ := groupRuns_cons x2 t2
      have hq : (x :: x2 :: t2) ++ y :: ys = x :: ((x2 :: t2) ++ y :: ys) := rfl
      have hg3 : groupRuns ((x2 :: t2) ++ y :: ys) =
          (x2 :: g2) :: (gs2 ++ groupRuns (y :: ys)) := by
        rw [IH2, hg2]
        rfl
      rw [hq, groupRuns_cons_eq x ((x2 :: t2) ++ y :: ys), hg3,
        groupRuns_cons_eq x (x2 :: t2), hg2]
      dsimp only
      by_cases hcl : classify x2 = classify x
      · simp only [if_pos hcl]
        rfl
      · simp only [if_neg hcl]
        rfl

/-! ### Equations for the segmentation loop -/

theorem convLoop_nil (k : Kind) (block : List (List Char)) :
    convLoop k block [] =
      if block.isEmpty then [] else [(k, content_from block)] := rfl

theorem convLoop_cons_eq (k : Kind) (block : List (List Char))
    (g : List (List Char)) (gs : List (List (List Char))) :
    convLoop k block (g :: gs) =
      if k = Kind.undefined ∧ ¬(classify (g.headD []) = Kind.user ∨
          classify (g.headD []) = Kind.assistant) then
        convLoop k block gs
      else if classify (g.headD []) = Kind.header then
        convLoop (if k = Kind.undefined then classify (g.headD []) else k) block gs
      else if classify (g.headD []) =
          (if k = Kind.undefined then classify (g.headD []) else k) ∨
          classify (g.headD []) = Kind.space then
        convLoop (if k = Kind.undefined then classify (g.headD []) else k)
          (block ++ g) gs
      else
        ((if k = Kind.undefined then classify (g.headD []) else k),
          content_from block) :: convLoop (classify (g.headD [])) g gs := rfl

theorem convRun_nil (k : Kind) (block : List (List Char)) :
    convRun k block [] = ([], (k, block)) := rfl

theorem convRun_cons_eq (k : Kind) (block : List (List Char))
    (g : List (List Char)) (gs : List (List (List Char))) :
    convRun k block (g :: gs) =
      if k = Kind.undefined ∧ ¬(classify (g.headD []) = Kind.user ∨
          classify (g.headD []) = Kind.assistant) then
        convRun k block gs
      else if classify (g.headD []) = Kind.header then
        convRun (if k = Kind.undefined then classify (g.headD []) else k) block gs
      else if classify (g.headD []) =
          (if k = Kind.undefined then classify (g.headD []) else k) ∨
          classify (g.headD []) = Kind.space then
        convRun (if k = Kind.undefined then classify (g.headD []) else k)
          (block ++ g) gs
      else
        (((if k = Kind.undefined then classify (g.headD []) else k), block) ::
          (convRun (classify (g.headD [])) g gs).1,
          (convRun (classify (g.headD [])) g gs).2) := rfl

theorem convLoop_skip {k : Kind} {block : List (List Char)} {g : List (List Char)}
    {gs : List (List (List Char))} (hk : k = Kind.undefined)
    (h : ¬(classify (g.headD []) = Kind.user ∨ classify (g.headD []) = Kind.assistant)) :
    convLoop k block (g :: gs) = convLoop k block gs := by
  rw [convLoop_cons_eq, if_pos ⟨hk, h⟩]

theorem convRun_skip {k : Kind} {block : List (List Char)} {g : List (List Char)}
    {gs : List (List (List Char))} (hk : k = Kind.undefined)
    (h : ¬(classify (g.headD []) = Kind.user ∨ classify (g.headD []) = Kind.assistant)) :
    convRun k block (g :: gs) = convRun k block gs := by
  rw [convRun_cons_eq, if_pos ⟨hk, h⟩]

theorem convLoop_header {k : Kind} {block : List (List Char)} {g : List (List Char)}
    {gs : List (List (List Char))} (hk : k ≠ Kind.undefined)
    (h : classify (g.headD []) = Kind.header) :
    convLoop k block (g :: gs) = convLoop k block gs := by
  rw [convLoop_cons_eq, if_neg (fun hc => hk hc.1), if_pos h, if_neg hk]

theorem convRun_header {k : Kind} {block : List (List Char)} {g : List (List Char)}
    {gs : List (List (List Char))} (hk : k ≠ Kind.undefined)
    (h : classify (g.headD []) = Kind.header) :
    convRun k block (g :: gs) = convRun k block gs := by
  rw [convRun_cons_eq, if_neg (fun hc => hk hc.1), if_pos h, if_neg hk]

theorem convLoop_extend {k : Kind} {block : List (List Char)} {g : List (List Char)}
    {gs : List (List (List Char))} (hk : k ≠ Kind.undefined)
    (hh : classify (g.headD []) ≠ Kind.header)
    (h : classify (g.headD []) = k ∨ classify (g.headD []) = Kind.space) :
    convLoop k block (g :: gs) = convLoop k (block ++ g) gs := by
  rw [convLoop_cons_eq, if_neg (fun hc => hk hc.1), if_neg hh]
  simp only [if_neg hk]
  rw [if_pos h]

theorem convRun_extend {k : Kind} {block : List (List Char)} {g : List (List Char)}
    {gs : List (List (List Char))} (hk : k ≠ Kind.undefined)
    (hh : classify (g.headD []) ≠ Kind.header)
    (h : classify (g.headD []) = k ∨ classify (g.headD []) = Kind.space) :
    convRun k block (g :: gs) = convRun k (block ++ g) gs := by
  rw [convRun_cons_eq, if_neg (fun hc => hk hc.1), if_neg hh]
  simp only [if_neg hk]
  rw [if_pos h]

theorem convLoop_establish {block : List (List Char)} {g : List (List Char)}
    {gs : List (List (List Char))}
    (h : classify (g.headD []) = Kind.user ∨ classify (g.headD []) = Kind.assistant) :
    convLoop Kind.undefined block (g :: gs) =
      convLoop (classify (g.headD [])) (block ++ g) gs := by
  have hh : classify (g.headD []) ≠ Kind.header := by
    rcases h with h | h <;> rw [h] <;> simp
  have hred : (if Kind.undefined = Kind.undefined then classify (g.headD [])
      else Kind.undefined) = classify (g.headD []) := if_pos rfl
  rw [convLoop_cons_eq, if_neg (fun hc => hc.2 h), if_neg hh, hred,
    if_pos (Or.inl rfl)]

theorem convRun_establish {block : List (List Char)} {g : List (List Char)}
    {gs : List (List (List Char))}
    (h : classify (g.headD []) = Kind.user ∨ classify (g.headD []) = Kind.assistant) :
    convRun Kind.undefined block (g :: gs) =
      convRun (classify (g.headD [])) (block ++ g) gs := by
  have hh : classify (g.headD []) ≠ Kind.header := by
    rcases h with h | h <;> rw [h] <;> simp
  have hred : (if Kind.undefined = Kind.undefined then classify (g.headD [])
      else Kind.undefined) = classify (g.headD []) := if_pos rfl
  rw [convRun_cons_eq, if_neg (fun hc => hc.2 h), if_neg hh, hred,
    if_pos (Or.inl rfl)]

theorem convLoop_flush {k : Kind} {block : List (List Char)} {g : List (List Char)}
    {gs : List (List (List Char))} (hk : k ≠ Kind.undefined)
    (hh : classify (g.headD []) ≠ Kind.header)
    (h2 : classify (g.headD []) ≠ k) (h3 : classify (g.headD []) ≠ Kind.space) :
    convLoop k block (g :: gs) =
      (k, content_from block) :: convLoop (classify (g.headD [])) g gs := by
  rw [convLoop_cons_eq, if_neg (fun hc => hk hc.1), if_neg hh]
  simp only [if_neg hk]
  rw [if_neg (by tauto)]

theorem convRun_flush {k : Kind} {block : List (List Char)} {g : List (List Char)}
    {gs : List (List (List Char))} (hk : k ≠ Kind.undefined)
    (hh : classify (g.headD []) ≠ Kind.header)
    (h2 : classify (g.headD []) ≠ k) (h3 : classify (g.headD []) ≠ Kind.space) :
    convRun k block (g :: gs) =
      ((k, block) :: (convRun (classify (g.headD [])) g gs).1,
        (convRun (classify (g.headD [])) g gs).2) := by
  rw [convRun_cons_eq, if_neg (fun hc => hk hc.1), if_neg hh]
  simp only [if_neg hk]
  rw [if_neg (by tauto)]

/-- The plain loop is the instrumented loop with `content_from` applied to
each flushed block, the final state flushed when non-empty. -/
theorem convLoop_eq_convRun :
    ∀ gs k block, convLoop k block gs =
      (convRun k block gs).1.map (fun p => (p.1, content_from p.2)) ++
        (if (convRun k block gs).2.2.isEmpty then []
         else [((convRun k block gs).2.1, content_from (convRun k block gs).2.2)]) := by
  intro gs
  induction gs with
  | nil =>
    intro k block
    rw [convLoop_nil, convRun_nil]
    simp
  | cons g gs IH =>
    intro k block
    by_cases hk : k = Kind.undefined
    · by_cases hcont : classify (g.headD []) = Kind.user ∨
          classify (g.headD []) = Kind.assistant
      · subst hk
        rw [convLoop_establish hcont, convRun_establish hcont]
        exact IH _ _
      · rw [convLoop_skip hk hcont, convRun_skip hk hcont]
        exact IH _ _
    · by_cases hh : classify (g.headD []) = Kind.header
      · rw [convLoop_header hk hh, convRun_header hk hh]
        exact IH _ _
      · by_cases hes : classify (g.headD []) = k ∨ classify (g.headD []) = Kind.space
        · rw [convLoop_extend hk hh hes, convRun_extend hk hh hes]
          exact IH _ _
        · have h2 : classify (g.headD []) ≠ k := fun hc => hes (Or.inl hc)
          have h3 : classify (g.headD []) ≠ Kind.space := fun hc => hes (Or.inr hc)
          rw [convLoop_flush hk hh h2 h3, convRun_flush hk hh h2 h3]
          simp only [List.map_cons, List.cons_append]
          rw [IH _ _]

/-- Running the instrumented loop over appended run lists chains the final
state of the first part into the second. -/
theorem convRun_append :
    ∀ gs1 gs2 k block, convRun k block (gs1 ++ gs2) =
      ((convRun k block gs1).1 ++
        (convRun (convRun k block gs1).2.1 (convRun k block gs1).2.2 gs2).1,
        (convRun (convRun k block gs1).2.1 (convRun k block gs1).2.2 gs2).2) := by
  intro gs1
  induction gs1 with
  | nil => intro gs2 k block; rw [List.nil_append, convRun_nil]; simp
  | cons g gs IH =>
    intro gs2 k block
    rw [List.cons_append]
    by_cases hk : k = Kind.undefined
    · by_cases hcont : classify (g.headD []) = Kind.user ∨
          classify (g.headD []) = Kind.assistant
      · subst hk
        rw [convRun_establish hcont, convRun_establish hcont]
        exact IH _ _ _
      · rw [convRun_skip hk hcont, convRun_skip hk hcont]
        exact IH _ _ _
    · by_cases hh : classify (g.headD []) = Kind.header
      · rw [convRun_header hk hh, convRun_header hk hh]
        exact IH _ _ _
      · by_cases hes : classify (g.headD []) = k ∨ classify (g.headD []) = Kind.space
        · rw [convRun_extend hk hh hes, convRun_extend hk hh hes]
          exact IH _ _ _
        · have h2 : classify (g.headD []) ≠ k := fun hc => hes (Or.inl hc)
          have h3 : classify (g.headD []) ≠ Kind.space := fun hc => hes (Or.inr hc)
          rw [convRun_flush hk hh h2 h3, convRun_flush hk hh h2 h3, IH _ _ _]
          simp

/-- The state invariant of the loop: the role is undefined exactly while
the open block is empty, an established role is user or assistant, and
every mid-stream flush emits a non-empty block with a user or assistant
role. -/
theorem convRun_inv :
    ∀ gs k block,
      (k = Kind.undefined ∨ k = Kind.user ∨ k = Kind.assistant) →
      (k = Kind.undefined → block = []) →
      (k ≠ Kind.undefined → block ≠ []) →
      (∀ g ∈ gs, g ≠ []) →
      ((convRun k block gs).2.1 = Kind.undefined ∨
        (convRun k block gs).2.1 = Kind.user ∨
        (convRun k block gs).2.1 = Kind.assistant) ∧
      ((convRun k block gs).2.1 = Kind.undefined → (convRun k block gs).2.2 = []) ∧
      ((convRun k block gs).2.1 ≠ Kind.undefined → (convRun k block gs).2.2 ≠ []) ∧
      (∀ p ∈ (convRun k block gs).1, p.2 ≠ [] ∧
        (p.1 = Kind.user ∨ p.1 = Kind.assistant)) := by
  intro gs
  induction gs with
  | nil =>
    intro k block hks hkb hkb2 _
    rw [convRun_nil]
    exact ⟨hks, hkb, hkb2, fun p hp => by simp at hp⟩
  | cons g gs IH =>
    intro k block hks hkb hkb2 hgs
    have hgne : g ≠ [] := hgs g (List.mem_cons_self g gs)
    have hgs2 : ∀ x ∈ gs, x ≠ [] := fun x hx => hgs x (List.mem_cons_of_mem g hx)
    by_cases hk : k = Kind.undefined
    · by_cases hcont : classify (g.headD []) = Kind.user ∨
          classify (g.headD []) = Kind.assistant
      · subst hk
        rw [convRun_establish hcont]
        have hbe : block = [] := hkb rfl
        rw [hbe, List.nil_append]
        exact IH (classify (g.headD [])) g (Or.inr hcont)
          (fun hc => absurd hc (classify_ne_undefined _)) (fun _ => hgne) hgs2
      · rw [convRun_skip hk hcont]
        exact IH k block hks hkb hkb2 hgs2
    · by_cases hh : classify (g.headD []) = Kind.header
      · rw [convRun_header hk hh]
        exact IH k block hks hkb hkb2 hgs2
      · by_cases hes : classify (g.headD []) = k ∨ classify (g.headD []) = Kind.space
        · rw [convRun_extend hk hh hes]
          have hbne : block ≠ [] := hkb2 hk
          exact IH k (block ++ g) hks (fun hc => absurd hc hk)
            (fun _ => by simp [hbne]) hgs2
        · have h2 : classify (g.headD []) ≠ k := fun hc => hes (Or.inl hc)
          have h3 : classify (g.headD []) ≠ Kind.space := fun hc => hes (Or.inr hc)
          rw [convRun_flush hk hh h2 h3]
          have hkind : classify (g.headD []) = Kind.user ∨
              classify (g.headD []) = Kind.assistant := by
            rcases classify_cases (g.headD []) with hc | hc | hc | hc
            · exact absurd hc hh
            · exact Or.inr hc
            · exact absurd hc h3
            · exact Or.inl hc
          have IH2 := IH (classify (g.headD [])) g (Or.inr hkind)
            (fun hc => absurd hc (classify_ne_undefined _)) (fun _ => hgne) hgs2
          refine ⟨IH2.1, IH2.2.1, IH2.2.2.1, ?_⟩
          intro p hp
          rcases List.mem_cons.mp hp with rfl | hp2
          · refine ⟨hkb2 hk, ?_⟩
            rcases hks with hc | hc | hc
            · exact absurd hc hk
            · exact Or.inl hc
            · exact Or.inr hc
          · exact IH2.2.2.2 p hp2

theorem convLoop_ne_nil_of_block :
    ∀ gs (k : Kind) block, k ≠ Kind.undefined → block ≠ [] →
      convLoop k block gs ≠ [] := by
  intro gs
  induction gs with
  | nil =>
    intro k block _ hb
    rw [convLoop_nil, if_neg (by simpa [List.isEmpty_iff] using hb)]
    simp
  | cons g gs IH =>
    intro k block hk hb
    by_cases hh : classify (g.headD []) = Kind.header
    · rw [convLoop_header hk hh]; exact IH k block hk hb
    · by_cases hes : classify (g.headD []) = k ∨ classify (g.headD []) = Kind.space
      · rw [convLoop_extend hk hh hes]
        exact IH k (block ++ g) hk (by simp [hb])
      · have h2 : classify (g.headD []) ≠ k := fun hc => hes (Or.inl hc)
        have h3 : classify (g.headD []) ≠ Kind.space := fun hc => hes (Or.inr hc)
        rw [convLoop_flush hk hh h2 h3]
        simp

theorem convLoop_head_role :
    ∀ gs (k : Kind) block, k ≠ Kind.undefined →
      ∀ p, (convLoop k block gs).head? = some p → p.1 = k := by
  intro gs
  induction gs with
  | nil =>
    intro k block _ p hp
    rw [convLoop_nil] at hp
    by_cases hb : block.isEmpty = true
    · rw [if_pos hb] at hp; simp at hp
    · rw [if_neg hb] at hp
      have : (k, content_from block) = p := by simpa using hp
      rw [← this]
  | cons g gs IH =>
    intro k block hk p hp
    by_cases hh : classify (g.headD []) = Kind.header
    · rw [convLoop_header hk hh] at hp; exact IH k block hk p hp
    · by_cases hes : classify (g.headD []) = k ∨ classify (g.headD []) = Kind.space
      · rw [convLoop_extend hk hh hes] at hp; exact IH k (block ++ g) hk p hp
      · have h2 : classify (g.headD []) ≠ k := fun hc => hes (Or.inl hc)
        have h3 : classify (g.headD []) ≠ Kind.space := fun hc => hes (Or.inr hc)
        rw [convLoop_flush hk hh h2 h3] at hp
        have : (k, content_from block) = p := by simpa using hp
        rw [← this]

theorem convLoop_chain :
    ∀ gs (k : Kind) block, (k = Kind.user ∨ k = Kind.assistant) →
      List.Chain' (fun a b : Kind × List Char => a.1 ≠ b.1) (convLoop k block gs) := by
  intro gs
  induction gs with
  | nil =>
    intro k block _
    rw [convLoop_nil]
    by_cases hb : block.isEmpty = true
    · rw [if_pos hb]; exact List.chain'_nil
    · rw [if_neg hb]; exact List.chain'_singleton _
  | cons g gs IH =>
    intro k block hks
    have hk : k ≠ Kind.undefined := by
      rcases hks with h | h <;> rw [h] <;> simp
    by_cases hh : classify (g.headD []) = Kind.header
    · rw [convLoop_header hk hh]; exact IH k block hks
    · by_cases hes : classify (g.headD []) = k ∨ classify (g.headD []) = Kind.space
      · rw [convLoop_extend hk hh hes]; exact IH k (block ++ g) hks
      · have h2 : classify (g.headD []) ≠ k := fun hc => hes (Or.inl hc)
        have h3 : classify (g.headD []) ≠ Kind.space := fun hc => hes (Or.inr hc)
        rw [convLoop_flush hk hh h2 h3]
        have hkind : classify (g.headD []) = Kind.user ∨
            classify (g.headD []) = Kind.assistant := by
          rcases classify_cases (g.headD []) with hc | hc | hc | hc
          · exact absurd hc hh
          · exact Or.inr hc
          · exact absurd hc h3
          · exact Or.inl hc
        rw [List.chain'_cons']
        constructor
        · intro y hy
          have hy2 := convLoop_head_role gs (classify (g.headD [])) g
            (classify_ne_undefined _) y (by simpa using hy)
          intro hcon
          apply h2
          rw [← hy2, ← hcon]
        · exact IH (classify (g.headD [])) g hkind

theorem convLoop_chain_und :
    ∀ gs, List.Chain' (fun a b : Kind × List Char => a.1 ≠ b.1)
      (convLoop Kind.undefined [] gs) := by
  intro gs
  induction gs with
  | nil => rw [convLoop_nil]; simp
  | cons g gs IH =>
    by_cases hcont : classify (g.headD []) = Kind.user ∨
        classify (g.headD []) = Kind.assistant
    · rw [convLoop_establish hcont, List.nil_append]
      exact convLoop_chain gs (classify (g.headD [])) g hcont
    · rw [convLoop_skip rfl hcont]
      exact IH

theorem kind_not_content_of_skip {k : Kind}
    (h : k = Kind.header ∨ k = Kind.space) :
    ¬(k = Kind.user ∨ k = Kind.assistant) := by
  rcases h with h | h <;> rw [h] <;> simp

theorem conversation_parts_skip_line (p : List Char) (rest : List (List Char))
    (h : classify p = Kind.header ∨ classify p = Kind.space) :
    conversation_parts (p :: rest) = conversation_parts rest := by
  unfold conversation_parts
  cases rest with
  | nil =>
    have h1 : groupRuns [p] = [[p]] := rfl
    rw [h1, convLoop_skip rfl (by simpa using kind_not_content_of_skip h)]
    rfl
  | cons x t =>
    obtain ⟨g, gs, hg⟩ := groupRuns_cons x t
    rw [groupRuns_cons_eq p (x :: t), hg]
    dsimp only
    by_cases hcl : classify x = classify p
    · rw [if_pos hcl]
      have hs1 : classify ((p :: x :: g).headD []) = classify p := by simp
      have hs2 : classify ((x :: g).headD []) = classify p := by simpa using hcl
      rw [convLoop_skip rfl (by rw [hs1]; exact kind_not_content_of_skip h),
        convLoop_skip rfl (by rw [hs2]; exact kind_not_content_of_skip h)]
    · rw [if_neg hcl]
      have hs1 : classify (([p] : List (List Char)).headD []) = classify p := by simp
      rw [convLoop_skip rfl (by rw [hs1]; exact kind_not_content_of_skip h)]

theorem conversation_parts_skip (pre tl : List (List Char))
    (h : ∀ x ∈ pre, classify x = Kind.header ∨ classify x = Kind.space) :
    conversation_parts (pre ++ tl) = conversation_parts tl := by
  induction pre with
  | nil => rw [List.nil_append]
  | cons p pre2 IH =>
    rw [List.cons_append,
      conversation_parts_skip_line p (pre2 ++ tl) (h p (List.mem_cons_self p pre2))]
    exact IH (fun x hx => h x (List.mem_cons_of_mem p hx))

theorem conversation_parts_head (l : List Char) (rest : List (List Char))
    (h : classify l = Kind.user ∨ classify l = Kind.assistant) :
    conversation_parts (l :: rest) ≠ [] ∧
      ∀ p, (conversation_parts (l :: rest)).head? = some p → p.1 = classify l := by
  unfold conversation_parts
  obtain ⟨g, gs, hg⟩ := groupRuns_cons l rest
  rw [hg]
  have hhead : classify ((l :: g).headD []) = classify l := by simp
  have hcont : classify ((l :: g).headD []) = Kind.user ∨
      classify ((l :: g).headD []) = Kind.assistant := by rw [hhead]; exact h
  rw [convLoop_establish hcont, List.nil_append, hhead]
  have hk : classify l ≠ Kind.undefined := classify_ne_undefined l
  exact ⟨convLoop_ne_nil_of_block gs (classify l) (l :: g) hk (by simp),
    convLoop_head_role gs (classify l) (l :: g) hk⟩

/-! ### Helpers for the claims about process and the round trip -/

theorem getLast?_cons_ne_nil {α : Type} (a : α) (l : List α) (h : l ≠ []) :
    (a :: l).getLast? = l.getLast? := by
  have : (a :: l) = [a] ++ l := rfl
  rw [this, List.getLast?_append_of_ne_nil [a] h]

/-- Every emitted message role is user or assistant. -/
theorem conversation_parts_roles (lines : List (List Char)) :
    ∀ p ∈ conversation_parts lines, p.1 = Kind.user ∨ p.1 = Kind.assistant := by
  intro p hp
  unfold conversation_parts at hp
  rw [convLoop_eq_convRun] at hp
  have hinv := convRun_inv (groupRuns lines) Kind.undefined [] (Or.inl rfl)
    (fun _ => rfl) (fun hc => absurd rfl hc) (groupRuns_forall_ne_nil lines)
  rcases List.mem_append.mp hp with hp2 | hp2
  · obtain ⟨q, hq, hqe⟩ := List.mem_map.mp hp2
    have hr := (hinv.2.2.2 q hq).2
    rw [← hqe]
    exact hr
  · by_cases hb : (convRun Kind.undefined [] (groupRuns lines)).2.2.isEmpty = true
    · rw [if_pos hb] at hp2; simp at hp2
    · rw [if_neg hb] at hp2
      have hp3 : p = ((convRun Kind.undefined [] (groupRuns lines)).2.1,
          content_from (convRun Kind.undefined [] (groupRuns lines)).2.2) := by
        simpa using hp2
      have hne : (convRun Kind.undefined [] (groupRuns lines)).2.2 ≠ [] := by
        simpa [List.isEmpty_iff] using hb
      have hku : (convRun Kind.undefined [] (groupRuns lines)).2.1 ≠ Kind.undefined := by
        intro hc
        exact hne (hinv.2.1 hc)
      rcases hinv.1 with hc | hc | hc
      · exact absurd hc hku
      · rw [hp3]; exact Or.inl hc
      · rw [hp3]; exact Or.inr hc

/-- The role of the last message equals the final loop state role when that
role is established. -/
theorem conversation_parts_getLast (lines : List (List Char))
    (hb : (convRun Kind.undefined [] (groupRuns lines)).2.2 ≠ []) :
    (conversation_parts lines).getLast? =
      some ((convRun Kind.undefined [] (groupRuns lines)).2.1,
        content_from (convRun Kind.undefined [] (groupRuns lines)).2.2) := by
  unfold conversation_parts
  rw [convLoop_eq_convRun, if_neg (by simpa [List.isEmpty_iff] using hb)]
  exact List.getLast?_concat _

theorem getLast?_dropR_not_space (l : List Char) (c : Char)
    (h : (dropR l).getLast? = some c) : isPySpace c = false := by
  unfold dropR at h
  rw [List.getLast?_reverse] at h
  exact head?_dropWhile_false h

theorem isPySpace_of_isLineBreak (c : Char) (h : isLineBreak c = true) :
    isPySpace c = true := by
  unfold isLineBreak at h
  unfold isPySpace
  simp only [Bool.or_eq_true, decide_eq_true_eq] at h ⊢
  tauto

theorem kind_value_assistant_iff (k : Kind) :
    Kind.value k = chars "assistant" ↔ k = Kind.assistant := by
  cases k <;> simp [Kind.value, chars]

/-! ### The claims -/

/-- C2: for every input line list, the message sequence produced by
`conversation_parts` never contains two adjacent entries with the same
role: whenever the output has length greater than one, each entry role
differs from its successor's. -/
theorem C2_alternation (lines : List (List Char)) :
    List.Chain' (fun a b : Kind × List Char => a.1 ≠ b.1)
      (conversation_parts lines) :=
  convLoop_chain_und (groupRuns lines)

/-- C5: for every non-empty list of raw lines, `content_from` equals the
reference normalization of the spec, which strips marker and whitespace
per line, joins with single newlines, collapses newline runs to exactly
two newlines, and only then strips the whole result. -/
theorem C5_reference_normalization (lines : List (List Char)) (_h : lines ≠ []) :
    content_from lines = content_from_spec lines := by
  unfold content_from content_from_spec
  rw [collapseNL_pyStrip]

theorem C5_witness :
    ([chars "a", chars "", chars "", chars "> b"] : List (List Char)) ≠ [] ∧
      content_from [chars "a", chars "", chars "", chars "> b"] =
        content_from_spec [chars "a", chars "", chars "", chars "> b"] :=
  ⟨by decide, C5_reference_normalization [chars "a", chars "", chars "", chars "> b"]
    (by decide)⟩

/-- C6: input made of leading header or blank lines followed by a
content-bearing line is segmented exactly as the input without the leading
material, and the first emitted message role is the classification of the
first content-bearing line (user for user text, assistant for a marker
line). -/
theorem C6_leading_skip (pre : List (List Char)) (l : List Char)
    (rest : List (List Char))
    (hpre : ∀ x ∈ pre, classify x = Kind.header ∨ classify x = Kind.space)
    (hl : classify l = Kind.user ∨ classify l = Kind.assistant) :
    conversation_parts (pre ++ l :: rest) = conversation_parts (l :: rest) ∧
      (conversation_parts (pre ++ l :: rest)).head?.map Prod.fst =
        some (classify l) := by
  have hskip := conversation_parts_skip pre (l :: rest) hpre
  refine ⟨hskip, ?_⟩
  rw [hskip]
  obtain ⟨hne, hhead⟩ := conversation_parts_head l rest hl
  cases hh : (conversation_parts (l :: rest)).head? with
  | none => rw [List.head?_eq_none_iff] at hh; exact absurd hh hne
  | some p =>
    have hp := hhead p hh
    simp [hp]

theorem C6_witness :
    conversation_parts ([chars "# t", chars ""] ++ chars "hi" :: []) =
        conversation_parts (chars "hi" :: []) ∧
      (conversation_parts ([chars "# t", chars ""] ++ chars "hi" :: [])).head?.map
        Prod.fst = some (classify (chars "hi")) :=
  C6_leading_skip [chars "# t", chars ""] (chars "hi") [] (by decide) (by decide)

/-- C7: an input whose lines are all headers or blanks produces the empty
message list. -/
theorem C7_empty_output (lines : List (List Char))
    (h : ∀ x ∈ lines, classify x = Kind.header ∨ classify x = Kind.space) :
    conversation_parts lines = [] := by
  have hs := conversation_parts_skip lines [] h
  rw [List.append_nil] at hs
  exact hs

theorem C7_witness :
    (∀ x ∈ ([chars "# t", chars "", chars "  "] : List (List Char)),
      classify x = Kind.header ∨ classify x = Kind.space) ∧
    conversation_parts [chars "# t", chars "", chars "  "] = [] :=
  ⟨by decide, C7_empty_output [chars "# t", chars "", chars "  "] (by decide)⟩

/-- C8: every flush of the engine, mid-stream or final, emits a block that
holds at least one raw line: `conversation_parts` is the image under
content normalization of the flushed (role, raw block) pairs, and none of
those blocks is empty. -/
theorem C8_no_empty_flush (lines : List (List Char)) :
    conversation_parts lines =
        (convBlocks lines).map (fun p => (p.1, content_from p.2)) ∧
      ∀ p ∈ convBlocks lines, p.2 ≠ [] := by
  have hinv := convRun_inv (groupRuns lines) Kind.undefined [] (Or.inl rfl)
    (fun _ => rfl) (fun hc => absurd rfl hc) (groupRuns_forall_ne_nil lines)
  constructor
  · unfold conversation_parts convBlocks
    rw [convLoop_eq_convRun]
    rw [List.map_append]
    congr 1
    by_cases hb : (convRun Kind.undefined [] (groupRuns lines)).2.2.isEmpty = true
    · rw [if_pos hb, if_pos hb]
      rfl
    · rw [if_neg hb, if_neg hb]
      rfl
  · intro p hp
    unfold convBlocks at hp
    rcases List.mem_append.mp hp with hp2 | hp2
    · exact (hinv.2.2.2 p hp2).1
    · by_cases hb : (convRun Kind.undefined [] (groupRuns lines)).2.2.isEmpty = true
      · rw [if_pos hb] at hp2; simp at hp2
      · rw [if_neg hb] at hp2
        have hp3 : p = ((convRun Kind.undefined [] (groupRuns lines)).2.1,
            (convRun Kind.undefined [] (groupRuns lines)).2.2) := by
          simpa using hp2
        rw [hp3]
        simpa [List.isEmpty_iff] using hb

/-- C9: the engine is total — `classify` assigns one of the four real
kinds to every line (never the undefined sentinel), and
`conversation_parts` always yields a message list whose entries all carry
a user or assistant role. -/
theorem C9_totality :
    (∀ line : List Char, classify line = Kind.header ∨
      classify line = Kind.assistant ∨ classify line = Kind.space ∨
      classify line = Kind.user) ∧
    (∀ lines : List (List Char), ∃ ms : List (Kind × List Char),
      conversation_parts lines = ms ∧
        ms.all (fun p => p.1 == Kind.user || p.1 == Kind.assistant) = true) := by
  refine ⟨classify_cases, ?_⟩
  intro lines
  refine ⟨conversation_parts lines, rfl, ?_⟩
  rw [List.all_eq_true]
  intro p hp
  rcases conversation_parts_roles lines p hp with h | h <;> rw [h] <;> decide

/-- C10: every (kind, content) pair yielded by `conversation_parts` has
kind user or assistant; undefined, header and space never appear as the
role of an emitted message. -/
theorem C10_emitted_roles (lines : List (List Char)) (p : Kind × List Char)
    (hp : p ∈ conversation_parts lines) :
    p.1 = Kind.user ∨ p.1 = Kind.assistant :=
  conversation_parts_roles lines p hp

theorem C10_witness :
    ((Kind.user, chars "hi") : Kind × List Char).1 = Kind.user ∨
      ((Kind.user, chars "hi") : Kind × List Char).1 = Kind.assistant :=
  C10_emitted_roles [chars "hi", chars "> a"] (Kind.user, chars "hi") (by
    have h : conversation_parts [chars "hi", chars "> a"] =
        [(Kind.user, chars "hi"), (Kind.assistant, chars "a")] := by decide
    rw [h]
    exact List.mem_cons_self _ _)

/-- C4 counterexample: normalization is not idempotent as claimed.  For the
single line " > foo" the normalized content is "> foo" (the leading space
blocks the marker strip), and re-normalizing its lines strips the marker,
giving "foo". -/
theorem C4_counterexample :
    ¬(content_from (splitNL (content_from [chars " > foo"])) =
      content_from [chars " > foo"]) := by decide

/-- C4 amended: re-normalizing returns the same string provided every line
of the normalized output, split at newline characters, is already free of
surrounding whitespace and does not begin with the blockquote marker. -/
theorem C4_idempotence_amended (ls : List (List Char))
    (h : ∀ p ∈ splitNL (content_from ls), pyStrip p = p ∧ p.head? ≠ some '>') :
    content_from (splitNL (content_from ls)) = content_from ls := by
  have hmap : (splitNL (content_from ls)).map (fun line => pyStrip (lstripGt line)) =
      (splitNL (content_from ls)).map id := by
    apply List.map_congr_left
    intro p hp
    obtain ⟨h1, h2⟩ := h p hp
    have hl : lstripGt p = p := by
      apply dropWhile_eq_self_of_head
      intro c hc
      have hcne : c ≠ '>' := fun he => h2 (he ▸ hc)
      simp [hcne]
    rw [hl, h1]
    rfl
  have hstep : content_from (splitNL (content_from ls)) =
      collapseNL (pyStrip (joinNL ((splitNL (content_from ls)).map
        (fun line => pyStrip (lstripGt line))))) := rfl
  rw [hmap, List.map_id, joinNL_splitNL] at hstep
  rw [hstep]
  have hdef : content_from ls =
      collapseNL (pyStrip (joinNL (ls.map (fun line => pyStrip (lstripGt line))))) := rfl
  rw [hdef, pyStrip_collapseNL_pyStrip, collapseNL_idem]

theorem C4_witness :
    (∀ p ∈ splitNL (content_from [chars "hi there", chars "", chars "ok"]),
      pyStrip p = p ∧ p.head? ≠ some '>') ∧
    content_from (splitNL (content_from [chars "hi there", chars "", chars "ok"])) =
      content_from [chars "hi there", chars "", chars "ok"] :=
  ⟨by decide, C4_idempotence_amended [chars "hi there", chars "", chars "ok"]
    (by decide)⟩

/-- C1 counterexample: on the empty document the segmentation output is
empty, yet `process` does not skip: the prepended system message is last,
its role is "system", so a completion request is issued and the returned
text differs from the input. -/
theorem C1_counterexample :
    conversation_parts (splitlines []) = [] ∧
      (process [] []).issued = true ∧ (process [] []).output ≠ [] := by decide

/-- C1 amended: `process` skips the completion request and returns the
input unchanged exactly when the last message after prepending the system
message has role "assistant", which requires the segmentation output to be
non-empty with an assistant-role last entry; an empty segmentation output
leaves the system message last, and a request is issued. -/
theorem C1_skip_when_assistant (reply content : List Char)
    (h : (conversation_parts (splitlines content)).getLast?.map Prod.fst =
      some Kind.assistant) :
    process reply content = ⟨false, content⟩ := by
  cases hgl : (conversation_parts (splitlines content)).getLast? with
  | none => rw [hgl] at h; simp at h
  | some q =>
    rw [hgl] at h
    have hq : q.1 = Kind.assistant := by simpa using h
    have hne : conversation_parts (splitlines content) ≠ [] := by
      intro hc; rw [hc] at hgl; simp at hgl
    have hmapne : (conversation_parts (splitlines content)).map
        (fun p => (Kind.value p.1, p.2)) ≠ [] := by
      intro hc
      exact hne (List.map_eq_nil_iff.mp hc)
    have hlast2 : (systemMessage :: (conversation_parts (splitlines content)).map
        (fun p => (Kind.value p.1, p.2))).getLastD ([], []) =
        (Kind.value q.1, q.2) := by
      rw [List.getLastD_eq_getLast?, getLast?_cons_ne_nil _ _ hmapne,
        List.getLast?_map, hgl]
      rfl
    show (if ((systemMessage :: (conversation_parts (splitlines content)).map
        (fun p => (Kind.value p.1, p.2))).getLastD ([], [])).1 = chars "assistant"
      then (⟨false, content⟩ : ProcResult)
      else ⟨true, dropR content ++ chars "\n\n" ++ format_reply reply⟩) =
      ⟨false, content⟩
    rw [hlast2]
    rw [if_pos (by rw [hq]; rfl)]

theorem C1_witness : process (chars "r") (chars "> hi") = ⟨false, chars "> hi"⟩ :=
  C1_skip_when_assistant (chars "r") (chars "> hi") (by decide)

/-! ### The round trip (claim C3) -/

theorem splitlines_format_reply (reply : List Char) (h : splitlines reply ≠ []) :
    splitlines (format_reply reply) =
      (splitlines reply).map (fun line => '>' :: ' ' :: line) := by
  unfold format_reply
  apply splitlines_joinNL
  · simpa using h
  · intro p hp
    obtain ⟨l, hl, rfl⟩ := List.mem_map.mp hp
    refine ⟨by simp, ?_⟩
    intro c hc
    rcases List.mem_cons.mp hc with rfl | hc2
    · decide
    · rcases List.mem_cons.mp hc2 with rfl | hc3
      · decide
      · exact splitlines_no_break reply l hl c hc3

/-- After the separating blank group, an assistant-classified run closes
the conversation: the final loop state role is assistant and its block is
exactly the reply run. -/
theorem convRun_tail (k0 : Kind) (b0 sp Lr : List (List Char))
    (hsp : classify (sp.headD []) = Kind.space)
    (hk : k0 = Kind.undefined ∨ k0 = Kind.user)
    (hb : k0 = Kind.undefined → b0 = [])
    (hLrhead : classify (Lr.headD []) = Kind.assistant) :
    (convRun k0 b0 [sp, Lr]).2 = (Kind.assistant, Lr) := by
  rcases hk with hk | hk
  · subst hk
    rw [convRun_skip rfl (by rw [hsp]; simp),
      convRun_establish (Or.inr hLrhead), hb rfl, List.nil_append, convRun_nil,
      hLrhead]
  · subst hk
    rw [convRun_extend (by decide) (by rw [hsp]; simp) (Or.inr hsp),
      convRun_flush (by decide) (by rw [hLrhead]; decide)
        (by rw [hLrhead]; decide) (by rw [hLrhead]; decide),
      convRun_nil, hLrhead]

/-- C3 counterexample: with the empty reply no assistant line is appended,
so re-segmenting does not end in an assistant message at all. -/
theorem C3_counterexample :
    ¬((conversation_parts (splitlines (dropR (chars "hi") ++ chars "\n\n" ++
        format_reply []))).getLast? =
      some (Kind.assistant, content_from (splitlines (format_reply [])))) := by
  decide

/-- C3 amended: appending a formatted non-empty reply after one blank line
and re-segmenting yields a final assistant message whose content is the
normalized reply, provided the reply has at least one line and the
document's own segmentation does not already end with an assistant
message (in that case the blank-gap-absorbing merge rule would fuse the
reply into the document's last assistant block). -/
theorem C3_roundtrip (doc reply : List Char)
    (h1 : splitlines reply ≠ [])
    (h2 : (conversation_parts (splitlines (dropR doc))).getLast?.map Prod.fst ≠
      some Kind.assistant) :
    (conversation_parts (splitlines (dropR doc ++ chars "\n\n" ++
        format_reply reply))).getLast? =
      some (Kind.assistant, content_from (splitlines (format_reply reply))) := by
  have hcomb : dropR doc ++ chars "\n\n" ++ format_reply reply =
      dropR doc ++ ('\n' :: '\n' :: format_reply reply) := by
    rw [List.append_assoc]
    rfl
  rw [hcomb]
  have hLr : splitlines (format_reply reply) =
      (splitlines reply).map (fun line => '>' :: ' ' :: line) :=
    splitlines_format_reply reply h1
  have hLrne : splitlines (format_reply reply) ≠ [] := by
    rw [hLr]
    simpa using h1
  have hLrcl : ∀ x ∈ splitlines (format_reply reply), classify x = Kind.assistant := by
    rw [hLr]
    intro x hx
    obtain ⟨l, _, rfl⟩ := List.mem_map.mp hx
    exact classify_marker l
  obtain ⟨l0, tl, hl0⟩ : ∃ l0 tl, splitlines (format_reply reply) = l0 :: tl := by
    cases hsl : splitlines (format_reply reply) with
    | nil => exact absurd hsl hLrne
    | cons l0 tl => exact ⟨l0, tl, rfl⟩
  have hLrhead : classify ((splitlines (format_reply reply)).headD []) =
      Kind.assistant := by
    rw [hl0]
    exact hLrcl l0 (by rw [hl0]; exact List.mem_cons_self _ _)
  have hl0cl : classify l0 = Kind.assistant := by
    have := hLrhead
    rwa [hl0] at this
  have hgrLr : groupRuns (splitlines (format_reply reply)) =
      [splitlines (format_reply reply)] :=
    groupRuns_const Kind.assistant _ hLrne hLrcl
  have hsl2 : splitlines ('\n' :: format_reply reply) =
      [] :: splitlines (format_reply reply) :=
    splitlines_break '\n' _ isLineBreak_nl (fun hc => absurd hc.1 (by decide))
  by_cases hdnil : dropR doc = []
  · rw [hdnil, List.nil_append]
    have hsl3 : splitlines ('\n' :: '\n' :: format_reply reply) =
        [] :: [] :: splitlines (format_reply reply) := by
      rw [splitlines_break '\n' _ isLineBreak_nl (fun hc => absurd hc.1 (by decide)),
        hsl2]
    rw [hsl3]
    have happ : ([] :: [] :: splitlines (format_reply reply)) =
        ([[], []] : List (List Char)) ++ splitlines (format_reply reply) := rfl
    have hgr : groupRuns ([] :: [] :: splitlines (format_reply reply)) =
        [[[], []], splitlines (format_reply reply)] := by
      rw [happ, hl0,
        groupRuns_append [[], []] l0 tl (by simp) (by
          intro c hc
          have hce : c = [] := by simpa using hc
          rw [hce, classify_nil, hl0cl]
          decide),
        ← hl0, hgrLr]
      rfl
    unfold conversation_parts
    rw [hgr]
    have htail : (convRun Kind.undefined [] [[[], []],
        splitlines (format_reply reply)]).2 =
        (Kind.assistant, splitlines (format_reply reply)) :=
      convRun_tail Kind.undefined [] [[], []] _ classify_nil (Or.inl rfl)
        (fun _ => rfl) hLrhead
    rw [convLoop_eq_convRun, htail]
    rw [if_neg (by simpa [List.isEmpty_iff] using hLrne)]
    exact List.getLast?_concat _
  · have hdlastps : ∀ c, (dropR doc).getLast? = some c → isPySpace c = false :=
      fun c hc => getLast?_dropR_not_space doc c hc
    have hdlastbr : ∀ c, (dropR doc).getLast? = some c → isLineBreak c = false := by
      intro c hc
      by_cases hbr : isLineBreak c = true
      · exact absurd (isPySpace_of_isLineBreak c hbr)
          (by rw [hdlastps c hc]; simp)
      · simpa using hbr
    have hsplit : splitlines (dropR doc ++ '\n' :: '\n' :: format_reply reply) =
        splitlines (dropR doc) ++ ([] :: splitlines (format_reply reply)) := by
      have hb := splitlines_append_boundary (dropR doc) ('\n' :: format_reply reply)
        hdnil hdlastbr
      rw [hsl2] at hb
      exact hb
    rw [hsplit]
    obtain ⟨cl, hcl⟩ : ∃ c, (dropR doc).getLast? = some c := by
      cases hgl : (dropR doc).getLast? with
      | none => exact absurd (List.getLast?_eq_none_iff.mp hgl) hdnil
      | some c => exact ⟨c, rfl⟩
    obtain ⟨plast, hpl1, hpl2⟩ :=
      splitlines_getLast (dropR doc) hdnil cl hcl (hdlastbr cl hcl)
    have hplast_ne_space : classify plast ≠ Kind.space := by
      apply classify_ne_space_of_strip
      intro hcon
      rw [pyStrip_eq_nil_iff] at hcon
      have hmem : cl ∈ plast := List.mem_of_mem_getLast? hpl2
      exact absurd (hcon cl hmem) (by rw [hdlastps cl hcl]; simp)
    have hLdne : splitlines (dropR doc) ≠ [] := splitlines_ne_nil _ hdnil
    have hgr1 : groupRuns (splitlines (dropR doc) ++
        ([] :: splitlines (format_reply reply))) =
        groupRuns (splitlines (dropR doc)) ++
          groupRuns ([] :: splitlines (format_reply reply)) := by
      apply groupRuns_append _ _ _ hLdne
      intro c hc
      have hce : plast = c := by
        rw [hpl1] at hc
        simpa using hc
      rw [← hce, classify_nil]
      exact hplast_ne_space
    have hgr2 : groupRuns ([] :: splitlines (format_reply reply)) =
        [[[]], splitlines (format_reply reply)] := by
      have happ : ([] :: splitlines (format_reply reply)) =
          ([[]] : List (List Char)) ++ splitlines (format_reply reply) := rfl
      rw [happ, hl0,
        groupRuns_append [[]] l0 tl (by simp) (by
          intro c hc
          have hce : c = [] := by simpa using hc
          rw [hce, classify_nil, hl0cl]
          decide),
        ← hl0, hgrLr]
      rfl
    unfold conversation_parts
    rw [hgr1, hgr2, convLoop_eq_convRun, convRun_append]
    have hinv := convRun_inv (groupRuns (splitlines (dropR doc))) Kind.undefined []
      (Or.inl rfl) (fun _ => rfl) (fun hc => absurd rfl hc)
      (groupRuns_forall_ne_nil _)
    have hk0 : (convRun Kind.undefined [] (groupRuns (splitlines
        (dropR doc)))).2.1 ≠ Kind.assistant := by
      intro hcon
      have hkne : (convRun Kind.undefined [] (groupRuns (splitlines
          (dropR doc)))).2.1 ≠ Kind.undefined := by
        rw [hcon]; decide
      have hbne := hinv.2.2.1 hkne
      have hgl := conversation_parts_getLast (splitlines (dropR doc)) hbne
      apply h2
      rw [hgl]
      simp [hcon]
    have hkcases : (convRun Kind.undefined [] (groupRuns (splitlines
        (dropR doc)))).2.1 = Kind.undefined ∨
        (convRun Kind.undefined [] (groupRuns (splitlines
          (dropR doc)))).2.1 = Kind.user := by
      rcases hinv.1 with hc | hc | hc
      · exact Or.inl hc
      · exact Or.inr hc
      · exact absurd hc hk0
    have htail : (convRun (convRun Kind.undefined [] (groupRuns (splitlines
        (dropR doc)))).2.1 (convRun Kind.undefined [] (groupRuns (splitlines
        (dropR doc)))).2.2 [[[]], splitlines (format_reply reply)]).2 =
        (Kind.assistant, splitlines (format_reply reply)) :=
      convRun_tail _ _ [[]] _ classify_nil hkcases hinv.2.1 hLrhead
    rw [htail]
    rw [if_neg (by simpa [List.isEmpty_iff] using hLrne)]
    exact List.getLast?_concat _

theorem C3_witness :
    splitlines (chars "ok then") ≠ [] ∧
    (conversation_parts (splitlines (dropR (chars "hi")))).getLast?.map Prod.fst ≠
      some Kind.assistant ∧
    (conversation_parts (splitlines (dropR (chars "hi") ++ chars "\n\n" ++
        format_reply (chars "ok then")))).getLast? =
      some (Kind.assistant, content_from (splitlines (format_reply (chars "ok then")))) :=
  ⟨by decide, by decide,
    C3_roundtrip (chars "hi") (chars "ok then") (by decide) (by decide)⟩

end Chatgpt
